import Mathlib

/-!
Verification of the data-preparation recipes in `Week 3/Prepare Data.ipynb`.

The notebook loads the Pima Indians diabetes CSV (768 rows, 9 numeric
columns), splits it into an input matrix `X` (columns 0..7) and an output
vector `Y` (column 8), and applies scikit-learn transforms:
`MinMaxScaler(feature_range=(0,1)).fit_transform`, `StandardScaler`,
`Normalizer`, `Binarizer(threshold=0.0)`, `SelectKBest(chi2, k=4)` and
`PCA(n_components=3)`.

Matrices are embedded as lists of rows.  The affine / comparison-based
transforms are modelled over `ℚ` (exact arithmetic standing in for the
floating-point values); the two transforms whose definitions need a square
root (`StandardScaler`, `Normalizer`) are modelled over `ℝ`.
-/

namespace PrepareData

/-- Column `j` of a matrix stored as a list of rows (entry `X[i][j]`). -/
def col {α : Type} [Zero α] (M : List (List α)) (j : ℕ) : List α :=
  M.map (fun r => r.getD j 0)

/-- Minimum of a list (numpy `X.min(axis=0)` applied to one column);
`0` on the empty list, which never arises for the 768-row dataset. -/
def listMin (l : List ℚ) : ℚ :=
  match l with
  | [] => 0
  | x :: xs => xs.foldl min x

/-- Maximum of a list (numpy `X.max(axis=0)` applied to one column). -/
def listMax (l : List ℚ) : ℚ :=
  match l with
  | [] => 0
  | x :: xs => xs.foldl max x

theorem foldl_min_le_init {α : Type} [LinearOrder α] :
    ∀ (xs : List α) (x : α), xs.foldl min x ≤ x
  | [], x => le_refl x
  | a :: as, x => le_trans (foldl_min_le_init as (min x a)) (min_le_left x a)

theorem foldl_min_le_mem {α : Type} [LinearOrder α] :
    ∀ (xs : List α) (x y : α), y ∈ xs → xs.foldl min x ≤ y
  | a :: as, x, y, hy => by
    rcases List.mem_cons.mp hy with h | h
    · subst h
      exact le_trans (foldl_min_le_init as (min x y)) (min_le_right x y)
    · exact foldl_min_le_mem as (min x a) y h

theorem init_le_foldl_max {α : Type} [LinearOrder α] :
    ∀ (xs : List α) (x : α), x ≤ xs.foldl max x
  | [], x => le_refl x
  | a :: as, x => le_trans (le_max_left x a) (init_le_foldl_max as (max x a))

theorem mem_le_foldl_max {α : Type} [LinearOrder α] :
    ∀ (xs : List α) (x y : α), y ∈ xs → y ≤ xs.foldl max x
  | a :: as, x, y, hy => by
    rcases List.mem_cons.mp hy with h | h
    · subst h
      exact le_trans (le_max_right x y) (init_le_foldl_max as (max x y))
    · exact mem_le_foldl_max as (max x a) y h

theorem listMin_le_mem {l : List ℚ} {y : ℚ} (hy : y ∈ l) : listMin l ≤ y := by
  cases l with
  | nil => exact absurd hy (List.not_mem_nil y)
  | cons x xs =>
    rcases List.mem_cons.mp hy with h | h
    · subst h; exact foldl_min_le_init xs y
    · exact foldl_min_le_mem xs x y h

theorem mem_le_listMax {l : List ℚ} {y : ℚ} (hy : y ∈ l) : y ≤ listMax l := by
  cases l with
  | nil => exact absurd hy (List.not_mem_nil y)
  | cons x xs =>
    rcases List.mem_cons.mp hy with h | h
    · subst h; exact init_le_foldl_max xs y
    · exact mem_le_foldl_max xs x y h

/-- Modelled from the spec: scale factor of
`MinMaxScaler(feature_range=(0, 1))` for one column.  The scikit-learn
implementation is not part of the repository; it computes
`scale_ = (1 - 0) / handle_zeros_in_scale(data_max - data_min)`, where a
zero data range is replaced by `1` so that constant columns map to `0`. -/
def mmScale (M : List (List ℚ)) (j : ℕ) : ℚ :=
  let r := listMax (col M j) - listMin (col M j)
  if r = 0 then 1 else 1 / r

/-- Modelled from the spec: `MinMaxScaler(feature_range=(0, 1)).fit_transform`
("linear min-max mapping of each column to [0,1]"): each entry becomes
`(x - column min) * scale`. -/
def minMaxTransform (M : List (List ℚ)) : List (List ℚ) :=
  M.map (fun r =>
    (List.range r.length).map (fun j => (r.getD j 0 - listMin (col M j)) * mmScale M j))

/-- Modelled from the spec: `Binarizer(threshold=t).transform`.  The notebook
documents it as "All values above the threshold are marked 1 and all equal to
or below are marked as 0". -/
def binarize (t : ℚ) (M : List (List ℚ)) : List (List ℚ) :=
  M.map (fun r => r.map (fun x => if t < x then 1 else 0))

/-- `getD` through a `map`, inside the bounds. -/
theorem getD_map_of_lt {α β : Type} (f : α → β) (l : List α) (i : ℕ)
    (h : i < l.length) (d : α) (d' : β) :
    (l.map f).getD i d' = f (l.getD i d) := by
  rw [List.getD_eq_getElem (l.map f) d' (by simpa using h),
    List.getD_eq_getElem l d h, List.getElem_map]

/-- `getD` through a `map` over `List.range`, inside the bounds. -/
theorem getD_map_range {β : Type} (n j : ℕ) (f : ℕ → β) (d : β) (h : j < n) :
    (((List.range n).map f).getD j d) = f j := by
  rw [getD_map_of_lt f (List.range n) j (by simpa using h) 0 d]
  rw [List.getD_eq_getElem (List.range n) 0 (by simpa using h), List.getElem_range]

/-- The `(i, j)` entry of the matrix lies in column `j`. -/
theorem entry_mem_col {α : Type} [Zero α] (M : List (List α)) (i j : ℕ)
    (hi : i < M.length) : (M.getD i []).getD j 0 ∈ col M j := by
  have hmem : M.getD i [] ∈ M := by
    rw [List.getD_eq_getElem M [] hi]
    exact List.getElem_mem hi
  exact List.mem_map_of_mem (fun r => r.getD j 0) hmem

/-- The `(i, j)` entry of the rescaled matrix, written in closed form. -/
theorem minMaxTransform_entry (M : List (List ℚ)) (w i j : ℕ)
    (hw : ∀ r ∈ M, r.length = w) (hi : i < M.length) (hj : j < w) :
    ((minMaxTransform M).getD i []).getD j 0 =
      ((M.getD i []).getD j 0 - listMin (col M j)) * mmScale M j := by
  have hmem : M.getD i [] ∈ M := by
    rw [List.getD_eq_getElem M [] hi]
    exact List.getElem_mem hi
  unfold minMaxTransform
  rw [getD_map_of_lt _ M i hi [] []]
  exact getD_map_range (M.getD i []).length j _ 0
    (by rw [hw (M.getD i []) hmem]; exact hj)

/-- Mean of a list of reals (numpy `X.mean(axis=0)` on one column). -/
noncomputable def mean (l : List ℝ) : ℝ :=
  l.sum / l.length

/-- Population variance of a list of reals (numpy `X.var(axis=0)`,
`ddof = 0`). -/
noncomputable def popVar (l : List ℝ) : ℝ :=
  (l.map (fun x => (x - mean l) ^ 2)).sum / l.length

/-- Population standard deviation (numpy `X.std(axis=0)`, `ddof = 0`). -/
noncomputable def popStd (l : List ℝ) : ℝ :=
  Real.sqrt (popVar l)

/-- Modelled from the spec: the per-column scale of `StandardScaler`.  The
scikit-learn implementation is not part of the repository; a zero standard
deviation is replaced by `1` (`_handle_zeros_in_scale`). -/
noncomputable def stdScale (l : List ℝ) : ℝ :=
  if popStd l = 0 then 1 else popStd l

/-- Modelled from the spec: `StandardScaler().fit(X)` followed by
`transform(X)` ("per-column z-score"): each entry becomes
`(x - column mean) / column std`. -/
noncomputable def standardTransform (M : List (List ℝ)) : List (List ℝ) :=
  M.map (fun r =>
    (List.range r.length).map
      (fun j => (r.getD j 0 - mean (col M j)) / stdScale (col M j)))

/-- Sum of squares of a row. -/
def sumSq (l : List ℝ) : ℝ :=
  (l.map (fun x => x ^ 2)).sum

/-- Euclidean (l2) norm of a row. -/
noncomputable def rowNorm (l : List ℝ) : ℝ :=
  Real.sqrt (sumSq l)

/-- Modelled from the spec: the per-row divisor of `Normalizer()` (l2 norm).
The scikit-learn implementation is not part of the repository; it replaces a
zero row norm by `1` (`norms[norms == 0.0] = 1.0`), so all-zero rows pass
through unchanged. -/
noncomputable def normScale (l : List ℝ) : ℝ :=
  if rowNorm l = 0 then 1 else rowNorm l

/-- Modelled from the spec: `Normalizer().fit(X)` followed by `transform(X)`
("per-row rescale to unit vector length"): each row is divided by its norm. -/
noncomputable def normalizeTransform (M : List (List ℝ)) : List (List ℝ) :=
  M.map (fun r => r.map (fun x => x / normScale r))

theorem sum_map_mul_left_fn (l : List ℝ) (c : ℝ) (f : ℝ → ℝ) :
    (l.map (fun x => c * f x)).sum = c * (l.map f).sum := by
  induction l with
  | nil => simp
  | cons a as ih => simp only [List.map, List.sum_cons, ih]; ring

theorem sum_map_affine (l : List ℝ) (a b : ℝ) :
    (l.map (fun x => a * x + b)).sum = a * l.sum + l.length * b := by
  induction l with
  | nil => simp
  | cons x xs ih =>
    simp only [List.map, List.sum_cons, ih, List.length_cons]
    push_cast
    ring

theorem length_cast_ne_zero {l : List ℝ} (hl : l ≠ []) : (l.length : ℝ) ≠ 0 := by
  have : l.length ≠ 0 := fun h => hl (List.length_eq_zero.mp h)
  exact_mod_cast this

theorem mean_map_affine (l : List ℝ) (hl : l ≠ []) (a b : ℝ) :
    mean (l.map (fun x => a * x + b)) = a * mean l + b := by
  unfold mean
  rw [List.length_map, sum_map_affine]
  field_simp [length_cast_ne_zero hl]
  ring

theorem popVar_map_affine (l : List ℝ) (hl : l ≠ []) (a b : ℝ) :
    popVar (l.map (fun x => a * x + b)) = a ^ 2 * popVar l := by
  unfold popVar
  rw [List.length_map, List.map_map]
  have hfun : ((fun y => (y - mean (l.map (fun x => a * x + b))) ^ 2) ∘
      fun x => a * x + b) = fun x => a ^ 2 * (x - mean l) ^ 2 := by
    funext x
    simp only [Function.comp]
    rw [mean_map_affine l hl a b]
    ring
  rw [hfun, sum_map_mul_left_fn]
  ring

theorem eq_zero_of_mem_of_sum_eq_zero :
    ∀ (l : List ℝ), (∀ x ∈ l, 0 ≤ x) → l.sum = 0 → ∀ x ∈ l, x = 0
  | a :: as, h0, hs, x, hx => by
    have hsum : 0 ≤ as.sum :=
      List.sum_nonneg (fun y hy => h0 y (List.mem_cons_of_mem a hy))
    have ha : 0 ≤ a := h0 a (List.mem_cons_self a as)
    rw [List.sum_cons] at hs
    have ha0 : a = 0 := by linarith
    have has : as.sum = 0 := by linarith
    rcases List.mem_cons.mp hx with h | h
    · rw [h, ha0]
    · exact eq_zero_of_mem_of_sum_eq_zero as
        (fun y hy => h0 y (List.mem_cons_of_mem a hy)) has x h

theorem popVar_nonneg (l : List ℝ) : 0 ≤ popVar l := by
  unfold popVar
  apply div_nonneg
  · exact List.sum_nonneg (by
      intro x hx
      rcases List.mem_map.mp hx with ⟨y, _, hy⟩
      rw [← hy]
      positivity)
  · positivity

theorem popVar_ne_zero_of_ne {l : List ℝ} {a b : ℝ}
    (ha : a ∈ l) (hb : b ∈ l) (hab : a ≠ b) : popVar l ≠ 0 := by
  intro hV
  have hl : l ≠ [] := List.ne_nil_of_mem ha
  unfold popVar at hV
  rcases div_eq_zero_iff.mp hV with hs | hn
  · have hall := eq_zero_of_mem_of_sum_eq_zero (l.map (fun x => (x - mean l) ^ 2))
      (by
        intro x hx
        rcases List.mem_map.mp hx with ⟨y, _, hy⟩
        rw [← hy]
        positivity)
      hs
    have haz : (a - mean l) ^ 2 = 0 :=
      hall _ (List.mem_map_of_mem (fun x => (x - mean l) ^ 2) ha)
    have hbz : (b - mean l) ^ 2 = 0 :=
      hall _ (List.mem_map_of_mem (fun x => (x - mean l) ^ 2) hb)
    have haz' : a = mean l := by
      have h := sq_eq_zero_iff.mp haz
      linarith [sub_eq_zero.mp h]
    have hbz' : b = mean l := by
      have h := sq_eq_zero_iff.mp hbz
      linarith [sub_eq_zero.mp h]
    exact hab (haz'.trans hbz'.symm)
  · exact length_cast_ne_zero hl hn

end PrepareData

namespace PrepareData

/-- C1: in the Rescale recipe, every entry of `MinMaxScaler(feature_range=(0,1))
.fit_transform(X)` lies in `[0, 1]`, and on a non-constant column it is the
linear min-max image `(X[i][j] - min) / (max - min)` of the input entry. -/
theorem rescale_unit_interval_and_linear (M : List (List ℚ)) (w i j : ℕ)
    (hw : ∀ r ∈ M, r.length = w) (hi : i < M.length) (hj : j < w) :
    (0 ≤ ((minMaxTransform M).getD i []).getD j 0 ∧
      ((minMaxTransform M).getD i []).getD j 0 ≤ 1) ∧
    (listMin (col M j) ≠ listMax (col M j) →
      ((minMaxTransform M).getD i []).getD j 0 =
        ((M.getD i []).getD j 0 - listMin (col M j)) /
          (listMax (col M j) - listMin (col M j))) := by
  have he := minMaxTransform_entry M w i j hw hi hj
  have hx : (M.getD i []).getD j 0 ∈ col M j := entry_mem_col M i j hi
  have hlo : listMin (col M j) ≤ (M.getD i []).getD j 0 := listMin_le_mem hx
  have hhi : (M.getD i []).getD j 0 ≤ listMax (col M j) := mem_le_listMax hx
  constructor
  · rw [he]
    unfold mmScale
    by_cases hR : listMax (col M j) - listMin (col M j) = 0
    · rw [if_pos hR, mul_one]
      have heq : listMax (col M j) = listMin (col M j) := sub_eq_zero.mp hR
      have hxeq : (M.getD i []).getD j 0 = listMin (col M j) :=
        le_antisymm (heq ▸ hhi) hlo
      rw [hxeq]
      simp
    · rw [if_neg hR, mul_one_div]
      have hRpos : 0 < listMax (col M j) - listMin (col M j) :=
        lt_of_le_of_ne (by linarith) (Ne.symm hR)
      constructor
      · exact div_nonneg (by linarith) (le_of_lt hRpos)
      · rw [div_le_one hRpos]
        linarith
  · intro hne
    have hR : listMax (col M j) - listMin (col M j) ≠ 0 :=
      sub_ne_zero.mpr (Ne.symm hne)
    rw [he]
    unfold mmScale
    rw [if_neg hR, mul_one_div]

/-- Witness for C1 at the concrete matrix `[[1, 2], [3, 6]]`, entry `(0, 1)`:
column 1 is `[2, 6]`, so the entry `2` is rescaled to `(2 - 2) / (6 - 2) = 0`. -/
theorem rescale_unit_interval_and_linear_witness :
    (0 ≤ ((minMaxTransform [[(1:ℚ), 2], [3, 6]]).getD 0 []).getD 1 0 ∧
      ((minMaxTransform [[(1:ℚ), 2], [3, 6]]).getD 0 []).getD 1 0 ≤ 1) ∧
    (listMin (col [[(1:ℚ), 2], [3, 6]] 1) ≠ listMax (col [[(1:ℚ), 2], [3, 6]] 1) →
      ((minMaxTransform [[(1:ℚ), 2], [3, 6]]).getD 0 []).getD 1 0 =
        (([[(1:ℚ), 2], [3, 6]].getD 0 []).getD 1 0 - listMin (col [[(1:ℚ), 2], [3, 6]] 1)) /
          (listMax (col [[(1:ℚ), 2], [3, 6]] 1) - listMin (col [[(1:ℚ), 2], [3, 6]] 1))) :=
  rescale_unit_interval_and_linear [[(1:ℚ), 2], [3, 6]] 2 0 1
    (by decide) (by decide) (by decide)

/-- C4: in the Binarize recipe every entry of `Binarizer(threshold=0.0)
.transform(X)` is `0` or `1`, and the entry produced for an input value depends
only on how that value compares with the threshold `0.0`. -/
theorem binarize_entries_zero_or_one (M : List (List ℚ)) :
    (∀ row ∈ binarize 0 M, ∀ y ∈ row, y = 0 ∨ y = 1) ∧
    (∀ x y : ℚ, ((0:ℚ) < x ↔ (0:ℚ) < y) → binarize 0 [[x]] = binarize 0 [[y]]) := by
  constructor
  · intro row hrow y hy
    rcases List.mem_map.mp hrow with ⟨r, _, hr⟩
    subst hr
    rcases List.mem_map.mp hy with ⟨x, _, hx⟩
    subst hx
    by_cases h : (0:ℚ) < x
    · right; rw [if_pos h]
    · left; rw [if_neg h]
  · intro x y hxy
    unfold binarize
    simp only [List.map]
    by_cases h : (0:ℚ) < x
    · rw [if_pos h, if_pos (hxy.mp h)]
    · rw [if_neg h, if_neg (fun hc => h (hxy.mpr hc))]

/-- C9: `Binarizer` thresholds with a strict comparison: an entry equal to the
threshold `0.0` maps to `0`; entries map to `1` exactly when they exceed `0`. -/
theorem binarize_strict_threshold (M : List (List ℚ)) (i j : ℕ)
    (hi : i < M.length) (hj : j < (M.getD i []).length) :
    ((binarize 0 M).getD i []).getD j 0 =
      (if 0 < (M.getD i []).getD j 0 then 1 else 0) ∧
    ((M.getD i []).getD j 0 = 0 → ((binarize 0 M).getD i []).getD j 0 = 0) ∧
    ((M.getD i []).getD j 0 ≤ 0 → ((binarize 0 M).getD i []).getD j 0 = 0) ∧
    (0 < (M.getD i []).getD j 0 → ((binarize 0 M).getD i []).getD j 0 = 1) := by
  have he : ((binarize 0 M).getD i []).getD j 0 =
      (if 0 < (M.getD i []).getD j 0 then 1 else 0) := by
    unfold binarize
    rw [getD_map_of_lt _ M i hi [] []]
    exact getD_map_of_lt _ (M.getD i []) j hj 0 0
  refine ⟨he, ?_, ?_, ?_⟩
  · intro h0
    rw [he, if_neg (by rw [h0]; exact lt_irrefl 0)]
  · intro h0
    rw [he, if_neg (not_lt.mpr h0)]
  · intro h0
    rw [he, if_pos h0]

/-- `X = array[:,0:8]`: all rows, columns 0 through 7. -/
def splitX (a : List (List ℚ)) : List (List ℚ) :=
  a.map (fun r => r.take 8)

/-- `Y = array[:,8]`: column 8. -/
def splitY (a : List (List ℚ)) : List ℚ :=
  a.map (fun r => r.getD 8 0)

/-- A row of length 9 is its first 8 entries followed by its entry 8. -/
theorem take_eight_append_last {r : List ℚ} (h : r.length = 9) :
    r.take 8 ++ [r.getD 8 0] = r := by
  have hd : (r.drop 8).length = 1 := by rw [List.length_drop, h]
  obtain ⟨a, ha⟩ := List.length_eq_one.mp hd
  have hval : a = r.getD 8 0 := by
    have h8 : 8 < r.length := by omega
    have : (r.drop 8).getD 0 0 = a := by rw [ha]; rfl
    rw [List.getD_eq_getElem (r.drop 8) 0 (by omega), List.getElem_drop] at this
    rw [List.getD_eq_getElem r 0 h8, ← this]
  rw [← hval, ← ha, List.take_append_drop]

/-- C6: under the dataset invariant (768 rows, 9 numeric columns), the split
`X = array[:,0:8]; Y = array[:,8]` yields a 768×8 input matrix holding
columns 0..7, a length-768 output vector equal to column 8, and together they
contain exactly the entries of each loaded row. -/
theorem split_input_output (a : List (List ℚ))
    (ha : a.length = 768) (hw : ∀ r ∈ a, r.length = 9) :
    (splitX a).length = 768 ∧
    (∀ r ∈ splitX a, r.length = 8) ∧
    (splitY a).length = 768 ∧
    (∀ i < 768, ∀ j < 8,
      ((splitX a).getD i []).getD j 0 = (a.getD i []).getD j 0) ∧
    (∀ i < 768, (splitY a).getD i 0 = (a.getD i []).getD 8 0) ∧
    (∀ i < 768, ((splitX a).getD i []) ++ [(splitY a).getD i 0] = a.getD i []) := by
  have hmem : ∀ i, i < 768 → a.getD i [] ∈ a := by
    intro i hi
    rw [List.getD_eq_getElem a [] (by omega)]
    exact List.getElem_mem (by omega)
  have hXrow : ∀ i, i < 768 → (splitX a).getD i [] = (a.getD i []).take 8 := by
    intro i hi
    unfold splitX
    rw [getD_map_of_lt _ a i (by omega) [] []]
  have hYrow : ∀ i, i < 768 → (splitY a).getD i 0 = (a.getD i []).getD 8 0 := by
    intro i hi
    unfold splitY
    rw [getD_map_of_lt _ a i (by omega) [] 0]
  refine ⟨by simp [splitX, ha], ?_, by simp [splitY, ha], ?_, ?_, ?_⟩
  · intro r hr
    rcases List.mem_map.mp hr with ⟨s, hs, hrs⟩
    subst hrs
    rw [List.length_take, hw s hs]
    decide
  · intro i hi j hj
    rw [hXrow i hi]
    have hlen : j < ((a.getD i []).take 8).length := by
      rw [List.length_take, hw (a.getD i []) (hmem i hi)]
      omega
    rw [List.getD_eq_getElem _ 0 hlen, List.getElem_take,
      List.getD_eq_getElem _ 0 (by rw [hw (a.getD i []) (hmem i hi)]; omega)]
  · intro i hi
    exact hYrow i hi
  · intro i hi
    rw [hXrow i hi, hYrow i hi]
    exact take_eight_append_last (hw (a.getD i []) (hmem i hi))

/-- Column `j` of the standardized matrix is the z-score image of column `j`
of the input. -/
theorem col_standardTransform (M : List (List ℝ)) (w j : ℕ)
    (hw : ∀ r ∈ M, r.length = w) (hj : j < w) :
    col (standardTransform M) j =
      (col M j).map (fun x => (x - mean (col M j)) / stdScale (col M j)) := by
  unfold standardTransform col
  rw [List.map_map, List.map_map]
  apply List.map_congr_left
  intro r hr
  simp only [Function.comp]
  exact getD_map_range r.length j _ 0 (by rw [hw r hr]; exact hj)

/-- The `(i, j)` entry of the standardized matrix, in closed form. -/
theorem standardTransform_entry (M : List (List ℝ)) (w i j : ℕ)
    (hw : ∀ r ∈ M, r.length = w) (hi : i < M.length) (hj : j < w) :
    ((standardTransform M).getD i []).getD j 0 =
      ((M.getD i []).getD j 0 - mean (col M j)) / stdScale (col M j) := by
  have hmem : M.getD i [] ∈ M := by
    rw [List.getD_eq_getElem M [] hi]
    exact List.getElem_mem hi
  unfold standardTransform
  rw [getD_map_of_lt _ M i hi [] []]
  exact getD_map_range (M.getD i []).length j _ 0
    (by rw [hw (M.getD i []) hmem]; exact hj)

/-- C2: in the Standardize recipe, on a non-constant column `j`, the output of
`StandardScaler().fit(X)` followed by `transform(X)` has column mean `0` and
population standard deviation `1`, and each entry is
`(X[i][j] - mean) / std`. -/
theorem standardize_zero_mean_unit_std (M : List (List ℝ)) (w j : ℕ)
    (hw : ∀ r ∈ M, r.length = w) (hj : j < w)
    (hnc : ∃ a ∈ col M j, ∃ b ∈ col M j, a ≠ b) :
    mean (col (standardTransform M) j) = 0 ∧
    popStd (col (standardTransform M) j) = 1 ∧
    ∀ i < M.length, ((standardTransform M).getD i []).getD j 0 =
      ((M.getD i []).getD j 0 - mean (col M j)) / popStd (col M j) := by
  obtain ⟨a, ha, b, hb, hab⟩ := hnc
  have hl : col M j ≠ [] := List.ne_nil_of_mem ha
  have hV : popVar (col M j) ≠ 0 := popVar_ne_zero_of_ne ha hb hab
  have hVpos : 0 < popVar (col M j) :=
    lt_of_le_of_ne (popVar_nonneg (col M j)) (Ne.symm hV)
  have hσpos : 0 < popStd (col M j) := Real.sqrt_pos.mpr hVpos
  have hσ : popStd (col M j) ≠ 0 := ne_of_gt hσpos
  have hscale : stdScale (col M j) = popStd (col M j) := if_neg hσ
  have hfun : (fun x => (x - mean (col M j)) / stdScale (col M j)) =
      fun x => (1 / stdScale (col M j)) * x + (-(mean (col M j) / stdScale (col M j))) := by
    funext x
    ring
  have hmean : mean (col (standardTransform M) j) = 0 := by
    rw [col_standardTransform M w j hw hj, hfun, mean_map_affine (col M j) hl]
    rw [hscale]
    field_simp
  refine ⟨hmean, ?_, ?_⟩
  · unfold popStd
    rw [col_standardTransform M w j hw hj, hfun,
      popVar_map_affine (col M j) hl]
    rw [hscale]
    unfold popStd
    rw [div_pow, one_pow, Real.sq_sqrt (popVar_nonneg (col M j)), one_div,
      inv_mul_cancel₀ hV, Real.sqrt_one]
  · intro i hi
    rw [standardTransform_entry M w i j hw hi hj, hscale]

/-- Witness for C2 at the matrix `[[1], [3]]`: column 0 is `[1, 3]`
(mean `2`, population standard deviation `1`), and standardizing it gives
`[-1, 1]`, whose mean is `0` and population standard deviation `1`. -/
theorem standardize_zero_mean_unit_std_witness :
    mean (col (standardTransform [[(1:ℝ)], [3]]) 0) = 0 ∧
    popStd (col (standardTransform [[(1:ℝ)], [3]]) 0) = 1 := by
  have h := standardize_zero_mean_unit_std [[(1:ℝ)], [3]] 1 0
    (by intro r hr; simp at hr; rcases hr with rfl | rfl <;> rfl) (by norm_num)
    ⟨1, by simp [col], 3, by simp [col], by norm_num⟩
  exact ⟨h.1, h.2.1⟩

theorem sumSq_nonneg (l : List ℝ) : 0 ≤ sumSq l := by
  unfold sumSq
  exact List.sum_nonneg (by
    intro x hx
    rcases List.mem_map.mp hx with ⟨y, _, hy⟩
    rw [← hy]
    positivity)

theorem sumSq_eq_zero_of_all_zero {l : List ℝ} (h : ∀ x ∈ l, x = 0) :
    sumSq l = 0 := by
  unfold sumSq
  apply List.sum_eq_zero
  intro x hx
  rcases List.mem_map.mp hx with ⟨y, hy, hxy⟩
  rw [← hxy, h y hy]
  ring

theorem sumSq_ne_zero_of_nonzero {l : List ℝ} (h : ∃ x ∈ l, x ≠ 0) :
    sumSq l ≠ 0 := by
  obtain ⟨x, hx, hx0⟩ := h
  intro hS
  have hall := eq_zero_of_mem_of_sum_eq_zero (l.map (fun y => y ^ 2))
    (by
      intro y hy
      rcases List.mem_map.mp hy with ⟨z, _, hz⟩
      rw [← hz]
      positivity)
    hS
  exact hx0 (sq_eq_zero_iff.mp (hall _ (List.mem_map_of_mem (fun y => y ^ 2) hx)))

theorem sumSq_map_div (r : List ℝ) (c : ℝ) :
    sumSq (r.map (fun x => x / c)) = sumSq r / c ^ 2 := by
  unfold sumSq
  rw [List.map_map]
  have hfun : ((fun x => x ^ 2) ∘ fun x => x / c) =
      fun x => (1 / c ^ 2) * x ^ 2 := by
    funext x
    simp only [Function.comp]
    ring
  rw [hfun, sum_map_mul_left_fn]
  ring

/-- The `i`-th row of the normalized matrix, in closed form. -/
theorem normalizeTransform_row (M : List (List ℝ)) (i : ℕ) (hi : i < M.length) :
    (normalizeTransform M).getD i [] =
      (M.getD i []).map (fun x => x / normScale (M.getD i [])) := by
  unfold normalizeTransform
  rw [getD_map_of_lt _ M i hi [] []]

/-- An all-zero row is unchanged by the Normalizer's per-row division. -/
theorem zero_row_map_div (r : List ℝ) (h : ∀ x ∈ r, x = 0) :
    r.map (fun x => x / normScale r) = r := by
  have hn : rowNorm r = 0 := by
    unfold rowNorm
    rw [sumSq_eq_zero_of_all_zero h, Real.sqrt_zero]
  have hsc : normScale r = 1 := if_pos hn
  rw [List.map_congr_left (fun x _ => by rw [hsc, div_one]), List.map_id']

/-- A row with a nonzero entry is scaled to unit Euclidean norm. -/
theorem rowNorm_map_div_normScale (r : List ℝ) (h : ∃ x ∈ r, x ≠ 0) :
    rowNorm (r.map (fun x => x / normScale r)) = 1 := by
  have hS : sumSq r ≠ 0 := sumSq_ne_zero_of_nonzero h
  have hSpos : 0 < sumSq r := lt_of_le_of_ne (sumSq_nonneg r) (Ne.symm hS)
  have hnpos : 0 < rowNorm r := Real.sqrt_pos.mpr hSpos
  have hsc : normScale r = rowNorm r := if_neg (ne_of_gt hnpos)
  unfold rowNorm
  rw [sumSq_map_div, hsc]
  unfold rowNorm
  rw [Real.sq_sqrt (sumSq_nonneg r), div_self hS, Real.sqrt_one]

/-- C10: in the Normalize recipe an all-zero input row is returned unchanged
(its Euclidean length is `0`, not `1`), while every row with a nonzero entry
is scaled to Euclidean length exactly `1`. -/
theorem normalizer_zero_row_and_unit_rows (M : List (List ℝ)) (i : ℕ)
    (hi : i < M.length) :
    ((∀ x ∈ M.getD i [], x = 0) →
      (normalizeTransform M).getD i [] = M.getD i []) ∧
    ((∃ x ∈ M.getD i [], x ≠ 0) →
      rowNorm ((normalizeTransform M).getD i []) = 1) := by
  constructor
  · intro h
    rw [normalizeTransform_row M i hi]
    exact zero_row_map_div _ h
  · intro h
    rw [normalizeTransform_row M i hi]
    exact rowNorm_map_div_normScale _ h

/-- Witness for C10 at the matrix `[[0, 0], [3, 4]]`, row 0. -/
theorem normalizer_zero_row_and_unit_rows_witness :
    ((∀ x ∈ [[(0:ℝ), 0], [3, 4]].getD 0 [], x = 0) →
      (normalizeTransform [[(0:ℝ), 0], [3, 4]]).getD 0 [] =
        [[(0:ℝ), 0], [3, 4]].getD 0 []) ∧
    ((∃ x ∈ [[(0:ℝ), 0], [3, 4]].getD 0 [], x ≠ 0) →
      rowNorm ((normalizeTransform [[(0:ℝ), 0], [3, 4]]).getD 0 []) = 1) :=
  normalizer_zero_row_and_unit_rows [[(0:ℝ), 0], [3, 4]] 0 (by norm_num)

/-- C3 counterexample: on the input matrix `[[0, 0]]`, whose only row is
all-zero, the Normalizer returns the row unchanged, and the corresponding
output row has Euclidean length `0`, not `1`. -/
theorem normalize_zero_row_not_unit :
    normalizeTransform [[(0:ℝ), 0]] = [[0, 0]] ∧
    rowNorm ((normalizeTransform [[(0:ℝ), 0]]).getD 0 []) ≠ 1 := by
  have hz : ∀ x ∈ [(0:ℝ), 0], x = 0 := by
    intro x hx
    simpa using hx
  have h1 : normalizeTransform [[(0:ℝ), 0]] = [[0, 0]] := by
    show [List.map (fun x => x / normScale [(0:ℝ), 0]) [(0:ℝ), 0]] = [[0, 0]]
    rw [zero_row_map_div _ hz]
  refine ⟨h1, ?_⟩
  rw [h1]
  have h0 : rowNorm [(0:ℝ), 0] = 0 := by
    unfold rowNorm
    rw [sumSq_eq_zero_of_all_zero hz, Real.sqrt_zero]
  rw [show ([[(0:ℝ), 0]].getD 0 []) = [(0:ℝ), 0] from rfl, h0]
  norm_num

/-- C3 amended: every input row with a nonzero entry is mapped by the
Normalizer to a row of Euclidean length exactly `1`. -/
theorem normalize_unit_norm_on_nonzero_rows (M : List (List ℝ)) (i : ℕ)
    (hi : i < M.length) (hnz : ∃ x ∈ M.getD i [], x ≠ 0) :
    rowNorm ((normalizeTransform M).getD i []) = 1 := by
  rw [normalizeTransform_row M i hi]
  exact rowNorm_map_div_normScale _ hnz

/-- Witness for the amended C3 at the matrix `[[3, 4]]`: the row `[3, 4]`
normalizes to `[3/5, 4/5]`, of unit length. -/
theorem normalize_unit_norm_on_nonzero_rows_witness :
    rowNorm ((normalizeTransform [[(3:ℝ), 4]]).getD 0 []) = 1 :=
  normalize_unit_norm_on_nonzero_rows [[(3:ℝ), 4]] 0 (by norm_num)
    ⟨3, by simp, by norm_num⟩

/-- Witness for C6 at a concrete 768×9 matrix. -/
theorem split_input_output_witness :
    (splitX (List.replicate 768 [(1:ℚ), 2, 3, 4, 5, 6, 7, 8, 9])).length = 768 ∧
    (splitY (List.replicate 768 [(1:ℚ), 2, 3, 4, 5, 6, 7, 8, 9])).length = 768 := by
  have h := split_input_output (List.replicate 768 [(1:ℚ), 2, 3, 4, 5, 6, 7, 8, 9])
    (List.length_replicate 768 _)
    (by intro r hr; rw [List.eq_of_mem_replicate hr]; rfl)
  exact ⟨h.1, h.2.2.1⟩

/-- Modelled from the spec: number of samples of class `c`
(scikit-learn `chi2` one-hot encodes `y` and takes column means). -/
def classCount (Y : List ℚ) (c : ℚ) : ℕ :=
  (Y.filter (fun y => decide (y = c))).length

/-- Modelled from the spec: `observed[c][j]` of `chi2`, the sum of feature `j`
over the samples of class `c` (the `Y.T @ X` step). -/
def observed (X : List (List ℚ)) (Y : List ℚ) (c : ℚ) (j : ℕ) : ℚ :=
  (((X.zip Y).filter (fun p => decide (p.2 = c))).map (fun p => p.1.getD j 0)).sum

/-- Per-feature totals: `feature_count = X.sum(axis=0)`. -/
def featureSum (X : List (List ℚ)) (j : ℕ) : ℚ :=
  (col X j).sum

/-- Modelled from the spec: the chi-squared statistic of feature `j`
(`expected = outer(class_prob, feature_count)`,
`chisq = Σ_c (observed - expected)² / expected`). -/
def chi2Score (X : List (List ℚ)) (Y : List ℚ) (j : ℕ) : ℚ :=
  (Y.dedup.map (fun c =>
    ((observed X Y c j - (classCount Y c : ℚ) / (Y.length : ℚ) * featureSum X j) ^ 2) /
      ((classCount Y c : ℚ) / (Y.length : ℚ) * featureSum X j))).sum

/-- `fit.scores_`: one chi-squared score per input feature. -/
def chi2Scores (X : List (List ℚ)) (Y : List ℚ) (w : ℕ) : List ℚ :=
  (List.range w).map (chi2Score X Y)

/-- The order used by the stable ascending argsort of the score vector:
by score, ties broken by original index. -/
def scoreLe (s : List ℚ) (i j : ℕ) : Bool :=
  decide (s.getD i 0 < s.getD j 0) ||
    (decide (s.getD i 0 = s.getD j 0) && decide (i ≤ j))

/-- Modelled from the spec: numpy `np.argsort(scores, kind="mergesort")` in
`SelectKBest._get_support_mask` — the feature indices sorted stably by
ascending score (so ties keep ascending index order). -/
def argsortAsc (s : List ℚ) : List ℕ :=
  (List.range s.length).mergeSort (scoreLe s)

/-- The last `k` entries of the stable argsort (`argsort(scores)[-k:]`). -/
def topKIdx (s : List ℚ) (k : ℕ) : List ℕ :=
  (argsortAsc s).drop (s.length - k)

/-- Modelled from the spec: the boolean support mask of `SelectKBest`, read
off in ascending feature order (`mask[argsort(scores)[-k:]] = True`). -/
def support (s : List ℚ) (k : ℕ) : List ℕ :=
  (List.range s.length).filter (fun i => decide (i ∈ topKIdx s k))

/-- Modelled from the spec: `fit.transform(X)` of `SelectKBest` — each row of
`X` restricted to the supported columns, in ascending index order. -/
def kbestTransform (X : List (List ℚ)) (s : List ℚ) (k : ℕ) : List (List ℚ) :=
  X.map (fun r => (support s k).map (fun j => r.getD j 0))

theorem scoreLe_trans (s : List ℚ) (a b c : ℕ)
    (h1 : scoreLe s a b) (h2 : scoreLe s b c) : scoreLe s a c := by
  simp only [scoreLe, Bool.or_eq_true, Bool.and_eq_true, decide_eq_true_eq] at *
  rcases h1 with h1 | ⟨h1, h1'⟩ <;> rcases h2 with h2 | ⟨h2, h2'⟩
  · exact Or.inl (lt_trans h1 h2)
  · exact Or.inl (h2 ▸ h1)
  · exact Or.inl (h1 ▸ h2)
  · exact Or.inr ⟨h1.trans h2, le_trans h1' h2'⟩

theorem scoreLe_total (s : List ℚ) (a b : ℕ) :
    scoreLe s a b || scoreLe s b a := by
  simp only [scoreLe, Bool.or_eq_true, Bool.and_eq_true, decide_eq_true_eq]
  rcases lt_trichotomy (s.getD a 0) (s.getD b 0) with h | h | h
  · exact Or.inl (Or.inl h)
  · rcases Nat.le_total a b with hab | hab
    · exact Or.inl (Or.inr ⟨h, hab⟩)
    · exact Or.inr (Or.inr ⟨h.symm, hab⟩)
  · exact Or.inr (Or.inl h)

theorem argsortAsc_perm (s : List ℚ) :
    List.Perm (argsortAsc s) (List.range s.length) :=
  List.mergeSort_perm (List.range s.length) (scoreLe s)

theorem argsortAsc_pairwise (s : List ℚ) :
    (argsortAsc s).Pairwise (fun i j => scoreLe s i j = true) :=
  List.sorted_mergeSort (scoreLe_trans s) (scoreLe_total s) (List.range s.length)

theorem argsortAsc_nodup (s : List ℚ) : (argsortAsc s).Nodup :=
  (argsortAsc_perm s).symm.nodup (List.nodup_range s.length)

theorem topKIdx_nodup (s : List ℚ) (k : ℕ) : (topKIdx s k).Nodup :=
  (List.drop_sublist _ _).nodup (argsortAsc_nodup s)

theorem topKIdx_lt (s : List ℚ) (k : ℕ) : ∀ i ∈ topKIdx s k, i < s.length := by
  intro i hi
  have : i ∈ argsortAsc s := List.mem_of_mem_drop hi
  exact List.mem_range.mp ((argsortAsc_perm s).mem_iff.mp this)

theorem mem_support_iff (s : List ℚ) (k : ℕ) (i : ℕ) :
    i ∈ support s k ↔ i < s.length ∧ i ∈ topKIdx s k := by
  simp [support, List.mem_filter, List.mem_range]

/-- The support has exactly `k` members when `k` does not exceed the number
of features. -/
theorem support_length (s : List ℚ) (k : ℕ) (hk : k ≤ s.length) :
    (support s k).length = k := by
  have hnd : (support s k).Nodup :=
    (List.nodup_range s.length).filter _
  have hperm : List.Perm (support s k) (topKIdx s k) := by
    apply List.perm_of_nodup_nodup_toFinset_eq hnd (topKIdx_nodup s k)
    apply Finset.ext
    intro x
    simp only [List.mem_toFinset, mem_support_iff]
    exact ⟨fun h => h.2, fun h => ⟨topKIdx_lt s k x h, h⟩⟩
  rw [hperm.length_eq]
  unfold topKIdx
  rw [List.length_drop]
  unfold argsortAsc
  rw [List.length_mergeSort, List.length_range]
  omega

/-- The supported indices are listed in strictly ascending order. -/
theorem support_sorted (s : List ℚ) (k : ℕ) :
    List.Sorted (· < ·) (support s k) :=
  (List.sorted_lt_range s.length).filter _

/-- Every unselected feature scores no higher than every selected feature. -/
theorem support_scores_ge (s : List ℚ) (k : ℕ) (i j : ℕ)
    (hi : i ∈ support s k) (hj : j < s.length) (hjn : j ∉ support s k) :
    s.getD j 0 ≤ s.getD i 0 := by
  have hit : i ∈ topKIdx s k := ((mem_support_iff s k i).mp hi).2
  have hjt : j ∉ topKIdx s k := by
    intro hmem
    exact hjn ((mem_support_iff s k j).mpr ⟨hj, hmem⟩)
  have hja : j ∈ argsortAsc s :=
    (argsortAsc_perm s).mem_iff.mpr (List.mem_range.mpr hj)
  have hjtake : j ∈ (argsortAsc s).take (s.length - k) := by
    rcases List.mem_append.mp
        (by rw [List.take_append_drop]; exact hja :
          j ∈ (argsortAsc s).take (s.length - k) ++
            (argsortAsc s).drop (s.length - k)) with h | h
    · exact h
    · exact absurd h hjt
  have hpw := argsortAsc_pairwise s
  rw [← List.take_append_drop (s.length - k) (argsortAsc s)] at hpw
  have hrel := (List.pairwise_append.mp hpw).2.2 j hjtake i hit
  simp only [scoreLe, Bool.or_eq_true, Bool.and_eq_true, decide_eq_true_eq] at hrel
  rcases hrel with h | ⟨h, _⟩
  · exact le_of_lt h
  · exact le_of_eq h

/-- C5: the Univariate-selection recipe computes one chi-squared score per
input feature (8 scores for the 8 columns), and `fit.transform(X)` keeps
exactly 4 columns — the supported indices are strictly ascending, all below 8,
every unselected column scores no higher than every selected one, and each
output row is the restriction of the corresponding input row to the supported
indices. -/
theorem selectKBest_chi2_top4 (X : List (List ℚ)) (Y : List ℚ) :
    (chi2Scores X Y 8).length = 8 ∧
    (support (chi2Scores X Y 8) 4).length = 4 ∧
    List.Sorted (· < ·) (support (chi2Scores X Y 8) 4) ∧
    (∀ i ∈ support (chi2Scores X Y 8) 4, i < 8) ∧
    (∀ i ∈ support (chi2Scores X Y 8) 4, ∀ j < 8,
      j ∉ support (chi2Scores X Y 8) 4 →
        (chi2Scores X Y 8).getD j 0 ≤ (chi2Scores X Y 8).getD i 0) ∧
    (∀ i < X.length,
      (kbestTransform X (chi2Scores X Y 8) 4).getD i [] =
        (support (chi2Scores X Y 8) 4).map (fun j => (X.getD i []).getD j 0)) := by
  have hlen : (chi2Scores X Y 8).length = 8 := by
    unfold chi2Scores
    rw [List.length_map, List.length_range]
  refine ⟨hlen, ?_, support_sorted _ 4, ?_, ?_, ?_⟩
  · exact support_length _ 4 (by rw [hlen]; norm_num)
  · intro i hi
    have := ((mem_support_iff _ 4 i).mp hi).1
    rwa [hlen] at this
  · intro i hi j hj hjn
    exact support_scores_ge _ 4 i j hi (by rw [hlen]; exact hj) hjn
  · intro i hi
    unfold kbestTransform
    rw [getD_map_of_lt _ X i hi [] []]

/-- Witness for C9 at the matrix `[[0, 5]]`: the threshold-equal entry `0`
binarizes to `0`. -/
theorem binarize_strict_threshold_witness :
    ((binarize 0 [[(0:ℚ), 5]]).getD 0 []).getD 0 0 =
      (if 0 < ([[(0:ℚ), 5]].getD 0 []).getD 0 0 then 1 else 0) ∧
    (([[(0:ℚ), 5]].getD 0 []).getD 0 0 = 0 →
      ((binarize 0 [[(0:ℚ), 5]]).getD 0 []).getD 0 0 = 0) ∧
    (([[(0:ℚ), 5]].getD 0 []).getD 0 0 ≤ 0 →
      ((binarize 0 [[(0:ℚ), 5]]).getD 0 []).getD 0 0 = 0) ∧
    (0 < ([[(0:ℚ), 5]].getD 0 []).getD 0 0 →
      ((binarize 0 [[(0:ℚ), 5]]).getD 0 []).getD 0 0 = 1) :=
  binarize_strict_threshold [[(0:ℚ), 5]] 0 0 (by decide) (by decide)

/-- Column mean over `ℚ` (the centering step of `PCA.fit`). -/
def colMean (M : List (List ℚ)) (j : ℕ) : ℚ :=
  (col M j).sum / (col M j).length

/-- The column-centered matrix computed by `PCA.fit` before its spectral
decomposition. -/
def centered (M : List (List ℚ)) : List (List ℚ) :=
  M.map (fun r => (List.range r.length).map (fun j => r.getD j 0 - colMean M j))

/-- Modelled from the spec: `PCA(n_components=3).fit(X)` ("orthogonal basis
change, keep top-k components").  The spectral step is performed by the
library's fixed, deterministic SVD routine, which is absent from the
repository; it is abstracted as an arbitrary function `svd` from the centered
matrix to the (components, explained-variance-ratios) pair. -/
def pcaFit (svd : List (List ℚ) → List (List ℚ) × List ℚ)
    (M : List (List ℚ)) : List (List ℚ) × List ℚ :=
  svd (centered M)

/-- C8: the Rescale, Standardize, Normalize, Binarize, Univariate-selection
and PCA recipes are deterministic: two runs on equal input data produce equal
outputs.  In this embedding each recipe is a pure function of the loaded
array — none of these six calls consumes a random seed or hidden state
(PCA's library SVD routine is the same fixed function `svd` in both runs). -/
theorem recipes_deterministic (X X' : List (List ℚ)) (M M' : List (List ℝ))
    (Y Y' : List ℚ) (svd : List (List ℚ) → List (List ℚ) × List ℚ)
    (hX : X = X') (hM : M = M') (hY : Y = Y') :
    minMaxTransform X = minMaxTransform X' ∧
    standardTransform M = standardTransform M' ∧
    normalizeTransform M = normalizeTransform M' ∧
    binarize 0 X = binarize 0 X' ∧
    kbestTransform X (chi2Scores X Y 8) 4 =
      kbestTransform X' (chi2Scores X' Y' 8) 4 ∧
    pcaFit svd X = pcaFit svd X' := by
  subst hX
  subst hM
  subst hY
  exact ⟨rfl, rfl, rfl, rfl, rfl, rfl⟩

/-- Witness for C8 at concrete inputs. -/
theorem recipes_deterministic_witness :
    minMaxTransform [[(1:ℚ), 2]] = minMaxTransform [[(1:ℚ), 2]] ∧
    standardTransform [[(1:ℝ)]] = standardTransform [[(1:ℝ)]] ∧
    normalizeTransform [[(1:ℝ)]] = normalizeTransform [[(1:ℝ)]] ∧
    binarize 0 [[(1:ℚ), 2]] = binarize 0 [[(1:ℚ), 2]] ∧
    kbestTransform [[(1:ℚ), 2]] (chi2Scores [[(1:ℚ), 2]] [0] 8) 4 =
      kbestTransform [[(1:ℚ), 2]] (chi2Scores [[(1:ℚ), 2]] [0] 8) 4 ∧
    pcaFit (fun m => (m, [])) [[(1:ℚ), 2]] =
      pcaFit (fun m => (m, [])) [[(1:ℚ), 2]] :=
  recipes_deterministic [[(1:ℚ), 2]] [[(1:ℚ), 2]] [[(1:ℝ)]] [[(1:ℝ)]]
    [0] [0] (fun m => (m, [])) rfl rfl rfl

end PrepareData
